import Mathlib

/-!
Verification of the numeric estimation engine of the virtual physics lab
(`script.js`): linear regression with R², the pendulum forward/inverse
model, the flywheel forward/inverse model, and the reading-list update
logic of the two experiment sessions.

Machine floats of JavaScript are modelled by exact real arithmetic `ℝ`;
properties are stated over exact arithmetic.  A JavaScript function that
returns early with an on-screen notification is modelled as a function
returning the (unchanged or updated) reading list together with an
optional error tag.
-/

namespace VPLab

/-! ### Statistics module (`linearRegression`, script.js lines 100-115) -/

/-- Result record `{slope, intercept, r2}` of `linearRegression`. -/
structure RegressionResult where
  slope : ℝ
  intercept : ℝ
  r2 : ℝ

/-- Embedding of `linearRegression(x, y)` (script.js lines 100-115).
The five sums are accumulated in one pass over indices `0 ≤ i < n` with
`n = x.length`; for the equal-length inputs the caller guarantees, the
loop's sums coincide with the list sums used here (`sum_xy` over the
zipped pairs). -/
noncomputable def linearRegression (x y : List ℝ) : RegressionResult :=
  let n : ℝ := (x.length : ℝ)
  if x.length = 0 then ⟨0, 0, 0⟩
  else
    let sum_x := x.sum
    let sum_y := y.sum
    let sum_xy := ((x.zip y).map fun p => p.1 * p.2).sum
    let sum_xx := (x.map fun a => a * a).sum
    let sum_yy := (y.map fun a => a * a).sum
    let denominator := n * sum_xx - sum_x * sum_x
    if denominator = 0 then ⟨0, 0, 0⟩
    else
      let slope := (n * sum_xy - sum_x * sum_y) / denominator
      let intercept := (sum_y - slope * sum_x) / n
      let r2_denominator :=
        Real.sqrt ((n * sum_xx - sum_x * sum_x) * (n * sum_yy - sum_y * sum_y))
      let r2 :=
        if r2_denominator = 0 then 1
        else ((n * sum_xy - sum_x * sum_y) / r2_denominator) ^ 2
      ⟨slope, intercept, r2⟩

/-! ### Pendulum model (script.js lines 197-253) -/

/-- Theoretical period `T = 2π·√(L/g)` (script.js line 204). -/
noncomputable def theoreticalPeriod (L g : ℝ) : ℝ :=
  2 * Real.pi * Real.sqrt (L / g)

/-- Simulated measured time `t = n·T·(1 + noise)` (script.js line 205); the
noise fraction is an external input (the source draws it in
`[-0.02, 0.02)`). -/
noncomputable def simulateMeasuredTime (L g : ℝ) (n : ℕ) (noise : ℝ) : ℝ :=
  (n : ℝ) * theoreticalPeriod L g * (1 + noise)

/-- One row of the pendulum readings table (script.js line 219). -/
structure SpReading where
  sno : ℕ
  L : ℝ
  t : ℝ
  T : ℝ
  T2 : ℝ

/-- Failure tag of the pendulum insertion path. -/
inductive SpError where
  | duplicateLength
  deriving DecidableEq

/-- Embedding of the insertion tail of `sp_addReading` (script.js lines
214-220): reject a duplicate length (leaving the list untouched),
otherwise push `{sno: 0, L, t, T, T²}`, sort ascending by `L` and
renumber `sno` as `i + 1`. -/
noncomputable def sp_insertReading (s : List SpReading) (L t_measured : ℝ)
    (n : ℕ) : List SpReading × Option SpError :=
  if s.any fun r => decide (r.L = L) then (s, some .duplicateLength)
  else
    let T := t_measured / (n : ℝ)
    let sorted :=
      (s ++ [SpReading.mk 0 L t_measured T (T * T)]).mergeSort fun a b =>
        decide (a.L ≤ b.L)
    (sorted.mapIdx fun i r => { r with sno := i + 1 }, none)

/-- Reading record synthesized by `sp_addReading` from a length and a
measured total time for `n` oscillations (script.js lines 218-219):
`T = t/n`, `T² = T·T`; the sequence number is supplied by the caller
(the insertion path renumbers it anyway). -/
noncomputable def sp_mkReading (sno : ℕ) (L t_measured : ℝ) (n : ℕ) :
    SpReading :=
  ⟨sno, L, t_measured, t_measured / (n : ℝ),
    (t_measured / (n : ℝ)) * (t_measured / (n : ℝ))⟩

/-- Embedding of the gravity estimate of `sp_updateUI` (script.js lines
249-250): regression with `x = T²`, `y = L`, then `g = slope·4π²`. -/
noncomputable def sp_estimateGravity (s : List SpReading) : ℝ :=
  (linearRegression (s.map fun r => r.T2) (s.map fun r => r.L)).slope *
    4 * Real.pi * Real.pi

/-! ### Flywheel model (script.js lines 361-397) -/

/-- Standard gravity constant (script.js line 4). -/
noncomputable def G_ACCELERATION : ℝ := 9.81

/-- One row of the flywheel readings table (script.js line 395). -/
structure FwReading where
  m : ℝ
  h : ℝ
  t : ℝ
  n2 : ℝ
  I : ℝ

/-- Failure tags of `fw_addReading`: "Mass is too light.", the manual-entry
validation, "Invalid parameters." and "Non-physical result.". -/
inductive FwError where
  | massTooLight
  | invalidEntry
  | invalidParams
  | nonPhysical
  deriving DecidableEq

/-- Result of one `fw_addReading` call: the (possibly extended) reading
list together with an optional failure tag; on failure the list is the
caller's list unchanged. -/
structure FwStepResult where
  readings : List FwReading
  err : Option FwError

/-- Fall height `h = 2π·r·n₁` (script.js line 366). -/
noncomputable def fw_height (r_m : ℝ) (n1 : ℕ) : ℝ :=
  2 * Real.pi * r_m * (n1 : ℝ)

/-- Linear fall acceleration `a = (m·g − Tf/r)/(m + I/r²)` (script.js
line 371), with gravity as an explicit parameter (the source passes the
constant `G_ACCELERATION`). -/
noncomputable def fw_accel (m_kg r_m I Tf g : ℝ) : ℝ :=
  (m_kg * g - Tf / r_m) / (m_kg + I / (r_m * r_m))

/-- Fall time `t = √(2h/a)` (script.js line 373). -/
noncomputable def fw_fallTime (h a : ℝ) : ℝ :=
  Real.sqrt (2 * h / a)

/-- Angular velocity at release `ω = a·t/r` (script.js line 374). -/
noncomputable def fw_omega (a t r_m : ℝ) : ℝ :=
  a * t / r_m

/-- Post-fall rotations `n₂ = (I·ω²/(2·Tf))/(2π)` (script.js lines
375-376). -/
noncomputable def fw_n2 (I omega Tf : ℝ) : ℝ :=
  (I * omega * omega) / (2 * Tf) / (2 * Real.pi)

/-- Inverse estimator `I = m·r²·(g·t² − 2h)·n₂ / (2h·(n₁+n₂))` with
`h = 2π·r·n₁` (script.js lines 389-392), as a pure function of its
inputs (gravity explicit; the source passes `G_ACCELERATION`). -/
noncomputable def estimateInertia (m_kg r_m : ℝ) (n1 : ℕ) (t n2 g : ℝ) : ℝ :=
  let h := 2 * Real.pi * r_m * (n1 : ℝ)
  (m_kg * r_m * r_m * (g * t * t - 2 * h) * n2) / (2 * h * ((n1 : ℝ) + n2))

/-- Embedding of the shared estimation tail of `fw_addReading` (script.js
lines 389-396): `term1 = 2h(n₁+n₂)`, `term2 = m·r²·(g·t²−2h)·n₂`;
"Invalid parameters." when `term1 = 0`, "Non-physical result." when
`I = term2/term1 ≤ 0`, otherwise the reading is appended. -/
noncomputable def fw_estimate_step (m_kg r_m : ℝ) (n1 : ℕ) (t n2 g : ℝ)
    (s : List FwReading) : FwStepResult :=
  let h := 2 * Real.pi * r_m * (n1 : ℝ)
  let term1 := 2 * h * ((n1 : ℝ) + n2)
  let term2 := m_kg * r_m * r_m * (g * t * t - 2 * h) * n2
  if term1 = 0 then ⟨s, some .invalidParams⟩
  else
    let I_calc := term2 / term1
    if I_calc ≤ 0 then ⟨s, some .nonPhysical⟩
    else ⟨s ++ [⟨m_kg, h, t, n2, I_calc⟩], none⟩

/-- Embedding of the simulation branch of `fw_addReading` (script.js lines
364-379 then 389-396): slider values `mass_g` (grams) and `r_cm`
(centimetres) are converted, the fall is simulated, multiplicative noise
(an external input, drawn in `[-0.015, 0.015)` by the source) is applied
to `t` and `n₂`, and the estimation tail runs. -/
noncomputable def fw_sim_step (mass_g r_cm : ℝ) (n1 : ℕ) (I Tf : ℝ)
    (noiseT noiseN : ℝ) (s : List FwReading) : FwStepResult :=
  let r_m := r_cm / 100
  let h := 2 * Real.pi * r_m * (n1 : ℝ)
  let m_kg := mass_g / 1000
  let a := (m_kg * G_ACCELERATION - Tf / r_m) / (m_kg + I / (r_m * r_m))
  if a ≤ 0 then ⟨s, some .massTooLight⟩
  else
    let t := Real.sqrt (2 * h / a)
    let omega := a * t / r_m
    let theta_after := (I * omega * omega) / (2 * Tf)
    let n2 := theta_after / (2 * Real.pi)
    fw_estimate_step m_kg r_m n1 (t * (1 + noiseT)) (n2 * (1 + noiseN))
      G_ACCELERATION s

/-- Embedding of the manual branch of `fw_addReading` (script.js lines
381-386 then 389-396): entered mass (grams), fall time and post-fall
rotations must be strictly positive (the JavaScript guard also rejects
`NaN`, which has no counterpart in exact arithmetic), then the estimation
tail runs. -/
noncomputable def fw_manual_step (mass_g t n2 r_cm : ℝ) (n1 : ℕ)
    (s : List FwReading) : FwStepResult :=
  let r_m := r_cm / 100
  let m_kg := mass_g / 1000
  if m_kg ≤ 0 ∨ t ≤ 0 ∨ n2 ≤ 0 then ⟨s, some .invalidEntry⟩
  else fw_estimate_step m_kg r_m n1 t n2 G_ACCELERATION s

/-! ### Session traces -/

/-- One user-triggered `fw_addReading` event with all its resolved numeric
inputs (mode, slider/entry values, model parameters and noise draws). -/
inductive FwEvent where
  | sim (mass_g r_cm : ℝ) (n1 : ℕ) (I Tf noiseT noiseN : ℝ)
  | manual (mass_g t n2 r_cm : ℝ) (n1 : ℕ)

/-- Effect of one `fw_addReading` event on the stored reading list. -/
noncomputable def fw_step (s : List FwReading) : FwEvent → List FwReading
  | .sim mass_g r_cm n1 I Tf noiseT noiseN =>
      (fw_sim_step mass_g r_cm n1 I Tf noiseT noiseN s).readings
  | .manual mass_g t n2 r_cm n1 =>
      (fw_manual_step mass_g t n2 r_cm n1 s).readings

/-- Modelled from the spec: the slider ranges and model presets live in
the HTML page, which is not among the source files; per the data model
(§3) a simulation-mode event delivers positive slider mass and radius, at
least one winding, a selected model (preset `A`/`B` or the randomized
unknown model) with positive inertia and friction torque, and
multiplicative noise factors `1 + ε` that stay positive (the source draws
`ε ∈ [-0.015, 0.015)`).  Manual events carry no constraint: their
validation is inside `fw_manual_step`. -/
def FwEventValid : FwEvent → Prop
  | .sim mass_g r_cm n1 I Tf noiseT noiseN =>
      0 < mass_g ∧ 0 < r_cm ∧ 0 < n1 ∧ 0 < I ∧ 0 < Tf ∧
        -1 < noiseT ∧ -1 < noiseN
  | .manual _ _ _ _ _ => True

/-- Positivity of the physical fields of a stored flywheel reading. -/
def FwReadingPos (r : FwReading) : Prop :=
  0 < r.m ∧ 0 < r.t ∧ 0 < r.n2 ∧ 0 < r.I

/-- Reading-set invariant of the pendulum session: pairwise strictly
ascending lengths (hence uniqueness and sortedness) and sequence numbers
exactly `1..N`. -/
def SpInvariant (s : List SpReading) : Prop :=
  (s.map fun r => r.L).Pairwise (· < ·) ∧
    (s.map fun r => r.sno) = List.range' 1 s.length

/-! ### Theorems -/

/-! Auxiliary lemmas relating the single-pass list sums of
`linearRegression` to indexed sums, and the Cauchy-Schwarz bound on the
covariance-style expressions. -/

lemma list_map_sum_fin (l : List ℝ) (φ : ℝ → ℝ) :
    (l.map φ).sum = ∑ i : Fin l.length, φ (l.get i) := by
  conv_lhs => rw [← List.ofFn_get l]
  rw [List.map_ofFn, List.sum_ofFn]
  rfl

lemma list_sum_fin (l : List ℝ) : l.sum = ∑ i : Fin l.length, l.get i := by
  conv_lhs => rw [← List.ofFn_get l]
  rw [List.sum_ofFn]

lemma list_map_sum_fin_cast (x y : List ℝ) (h : x.length = y.length)
    (φ : ℝ → ℝ) :
    (y.map φ).sum = ∑ i : Fin x.length, φ (y.get (Fin.cast h i)) := by
  rw [list_map_sum_fin y φ]
  exact (Fintype.sum_equiv (finCongr h) _ _ fun i => rfl).symm

lemma list_sum_fin_cast (x y : List ℝ) (h : x.length = y.length) :
    y.sum = ∑ i : Fin x.length, y.get (Fin.cast h i) := by
  rw [list_sum_fin y]
  exact (Fintype.sum_equiv (finCongr h) _ _ fun i => rfl).symm

lemma list_zip_mul_sum_fin (x : List ℝ) : ∀ (y : List ℝ)
    (h : x.length = y.length),
    ((x.zip y).map fun p => p.1 * p.2).sum =
      ∑ i : Fin x.length, x.get i * y.get (Fin.cast h i) := by
  induction x with
  | nil => intro y h; simp
  | cons a xs ih =>
    intro y h
    match y with
    | [] => simp at h
    | b :: ys =>
      have h' : xs.length = ys.length := by simpa using h
      simp only [List.zip_cons_cons, List.map_cons, List.sum_cons,
        List.length_cons]
      rw [Fin.sum_univ_succ, ih ys h']
      simp

lemma centered_cauchy (n : ℕ) (f g : Fin n → ℝ) :
    ((n : ℝ) * (∑ i, f i * g i) - (∑ i, f i) * (∑ i, g i)) ^ 2 ≤
      ((n : ℝ) * (∑ i, f i * f i) - (∑ i, f i) * (∑ i, f i)) *
        ((n : ℝ) * (∑ i, g i * g i) - (∑ i, g i) * (∑ i, g i)) := by
  rcases Nat.eq_zero_or_pos n with hn | hn
  · subst hn; simp
  · have key := Finset.sum_mul_sq_le_sq_mul_sq Finset.univ
      (fun i => (n : ℝ) * f i - ∑ j, f j) (fun i => (n : ℝ) * g i - ∑ j, g j)
    have expand : ∀ (u v : Fin n → ℝ),
        ∑ i, ((n : ℝ) * u i - ∑ j, u j) * ((n : ℝ) * v i - ∑ j, v j) =
          (n : ℝ) * ((n : ℝ) * (∑ i, u i * v i) -
            (∑ i, u i) * (∑ i, v i)) := by
      intro u v
      have pt : ∀ i : Fin n,
          ((n : ℝ) * u i - ∑ j, u j) * ((n : ℝ) * v i - ∑ j, v j) =
            (n : ℝ) * (n : ℝ) * (u i * v i) -
              ((n : ℝ) * (∑ j, v j)) * u i -
              ((n : ℝ) * (∑ j, u j)) * v i + (∑ j, u j) * (∑ j, v j) := by
        intro i; ring
      rw [Finset.sum_congr rfl fun i _ => pt i]
      rw [Finset.sum_add_distrib, Finset.sum_sub_distrib,
        Finset.sum_sub_distrib, ← Finset.mul_sum, ← Finset.mul_sum,
        ← Finset.mul_sum, Finset.sum_const, Finset.card_univ,
        Fintype.card_fin, nsmul_eq_mul]
      ring
    have e1 := expand f g
    have e2 := expand f f
    have e3 := expand g g
    have key2 : ((n : ℝ) * ((n : ℝ) * (∑ i, f i * g i) -
        (∑ i, f i) * (∑ i, g i))) ^ 2 ≤
        ((n : ℝ) * ((n : ℝ) * (∑ i, f i * f i) -
          (∑ i, f i) * (∑ i, f i))) *
          ((n : ℝ) * ((n : ℝ) * (∑ i, g i * g i) -
            (∑ i, g i) * (∑ i, g i))) := by
      rw [← e1, ← e2, ← e3]
      calc (∑ i, ((n : ℝ) * f i - ∑ j, f j) *
              ((n : ℝ) * g i - ∑ j, g j)) ^ 2
          ≤ (∑ i, ((n : ℝ) * f i - ∑ j, f j) ^ 2) *
              (∑ i, ((n : ℝ) * g i - ∑ j, g j) ^ 2) := key
        _ = (∑ i, ((n : ℝ) * f i - ∑ j, f j) *
              ((n : ℝ) * f i - ∑ j, f j)) *
              (∑ i, ((n : ℝ) * g i - ∑ j, g j) *
                ((n : ℝ) * g i - ∑ j, g j)) := by
            simp [sq]
    have hnpos : (0 : ℝ) < (n : ℝ) ^ 2 := by positivity
    rw [mul_pow] at key2
    nlinarith [key2, hnpos]

lemma reg_cauchy (x y : List ℝ) (hlen : x.length = y.length) :
    ((x.length : ℝ) * ((x.zip y).map fun p => p.1 * p.2).sum -
        x.sum * y.sum) ^ 2 ≤
      ((x.length : ℝ) * (x.map fun a => a * a).sum - x.sum * x.sum) *
        ((x.length : ℝ) * (y.map fun a => a * a).sum - y.sum * y.sum) := by
  rw [list_zip_mul_sum_fin x y hlen, list_sum_fin x,
    list_sum_fin_cast x y hlen, list_map_sum_fin x,
    list_map_sum_fin_cast x y hlen]
  exact centered_cauchy x.length x.get fun i => y.get (Fin.cast hlen i)

lemma reg_var_nonneg (l : List ℝ) :
    0 ≤ (l.length : ℝ) * (l.map fun a => a * a).sum - l.sum * l.sum := by
  rw [list_sum_fin l, list_map_sum_fin l]
  have key := Finset.sum_mul_sq_le_sq_mul_sq Finset.univ
    (fun i : Fin l.length => l.get i) (fun _ => (1 : ℝ))
  simp only [mul_one, one_pow, Finset.sum_const, Finset.card_univ,
    Fintype.card_fin, nsmul_eq_mul] at key
  have hsq : ∑ i : Fin l.length, l.get i ^ 2 =
      ∑ i : Fin l.length, l.get i * l.get i := by
    simp [sq]
  nlinarith [key]

/-- C5: for nondegenerate regression input (`n ≥ 1`,
`n·Σx² − (Σx)² ≠ 0`), the fallback condition
`√((n·Σx² − (Σx)²)·(n·Σy² − (Σy)²)) = 0` holds precisely when y has zero
variance (`n·Σy² − (Σy)² = 0`); in that case `linearRegression` returns
`r2 = 1`, and otherwise it returns
`r2 = ((n·Σxy − Σx·Σy)/r2_denom)²`. -/
theorem linearRegression_r2_formula (x y : List ℝ)
    (hlen : x.length = y.length) (hn : 1 ≤ x.length)
    (hden : (x.length : ℝ) * (x.map fun a => a * a).sum -
      x.sum * x.sum ≠ 0) :
    (Real.sqrt
        (((x.length : ℝ) * (x.map fun a => a * a).sum - x.sum * x.sum) *
          ((x.length : ℝ) * (y.map fun a => a * a).sum - y.sum * y.sum)) =
          0 ↔
      (x.length : ℝ) * (y.map fun a => a * a).sum - y.sum * y.sum = 0) ∧
    (Real.sqrt
        (((x.length : ℝ) * (x.map fun a => a * a).sum - x.sum * x.sum) *
          ((x.length : ℝ) * (y.map fun a => a * a).sum - y.sum * y.sum)) =
          0 →
      (linearRegression x y).r2 = 1) ∧
    (Real.sqrt
        (((x.length : ℝ) * (x.map fun a => a * a).sum - x.sum * x.sum) *
          ((x.length : ℝ) * (y.map fun a => a * a).sum - y.sum * y.sum)) ≠
          0 →
      (linearRegression x y).r2 =
        (((x.length : ℝ) * ((x.zip y).map fun p => p.1 * p.2).sum -
            x.sum * y.sum) /
          Real.sqrt
            (((x.length : ℝ) * (x.map fun a => a * a).sum -
                x.sum * x.sum) *
              ((x.length : ℝ) * (y.map fun a => a * a).sum -
                y.sum * y.sum))) ^ 2) := by
  have h0 : x.length ≠ 0 := by omega
  have hDx : 0 < (x.length : ℝ) * (x.map fun a => a * a).sum -
      x.sum * x.sum := lt_of_le_of_ne (reg_var_nonneg x) (Ne.symm hden)
  have hDy := reg_var_nonneg y
  rw [← hlen] at hDy
  refine ⟨?_, ?_, ?_⟩
  · rw [Real.sqrt_eq_zero']
    constructor
    · intro hle
      have hle0 : (x.length : ℝ) * (y.map fun a => a * a).sum -
          y.sum * y.sum ≤ 0 := by nlinarith [hDx, hDy, hle]
      exact le_antisymm hle0 hDy
    · intro hy0
      rw [hy0, mul_zero]
  · intro hz
    simp only [linearRegression]
    rw [if_neg h0, if_neg hden]
    dsimp only
    rw [if_pos hz]
  · intro hz
    simp only [linearRegression]
    rw [if_neg h0, if_neg hden]
    dsimp only
    rw [if_neg hz]

/-- Closed witness for `linearRegression_r2_formula` at `x = [1, 2]`,
`y = [3, 3]` (zero y-variance): the fallback yields `r2 = 1`. -/
theorem linearRegression_r2_formula_witness :
    (linearRegression [(1 : ℝ), 2] [3, 3]).r2 = 1 := by
  have h := linearRegression_r2_formula [(1 : ℝ), 2] [3, 3] (by norm_num)
    (by norm_num) (by norm_num)
  exact h.2.1 (by norm_num [Real.sqrt_eq_zero'])

/-- C6: for every pair of equal-length inputs, the returned `r2` lies in
`[0, 1]`: the fallback branches return `0` or `1`, and in the general
branch the squared normalized covariance is bounded by `1` via the
Cauchy-Schwarz inequality (exact arithmetic). -/
theorem linearRegression_r2_mem_unitInterval (x y : List ℝ)
    (hlen : x.length = y.length) :
    0 ≤ (linearRegression x y).r2 ∧ (linearRegression x y).r2 ≤ 1 := by
  simp only [linearRegression]
  by_cases h0 : x.length = 0
  · rw [if_pos h0]
    norm_num
  · rw [if_neg h0]
    by_cases hden : (x.length : ℝ) * (x.map fun a => a * a).sum -
        x.sum * x.sum = 0
    · rw [if_pos hden]
      norm_num
    · rw [if_neg hden]
      dsimp only
      by_cases hz : Real.sqrt
          (((x.length : ℝ) * (x.map fun a => a * a).sum - x.sum * x.sum) *
            ((x.length : ℝ) * (y.map fun a => a * a).sum -
              y.sum * y.sum)) = 0
      · rw [if_pos hz]
        norm_num
      · rw [if_neg hz]
        have hDx : 0 < (x.length : ℝ) * (x.map fun a => a * a).sum -
            x.sum * x.sum := lt_of_le_of_ne (reg_var_nonneg x)
          (Ne.symm hden)
        have hDy := reg_var_nonneg y
        rw [← hlen] at hDy
        have hD_nonneg : 0 ≤
            ((x.length : ℝ) * (x.map fun a => a * a).sum - x.sum * x.sum) *
              ((x.length : ℝ) * (y.map fun a => a * a).sum -
                y.sum * y.sum) := mul_nonneg hDx.le hDy
        have hD_pos : 0 <
            ((x.length : ℝ) * (x.map fun a => a * a).sum - x.sum * x.sum) *
              ((x.length : ℝ) * (y.map fun a => a * a).sum -
                y.sum * y.sum) :=
          lt_of_le_of_ne hD_nonneg fun heq =>
            hz (by rw [← heq, Real.sqrt_zero])
        constructor
        · positivity
        · rw [div_pow, Real.sq_sqrt hD_nonneg]
          rw [div_le_one hD_pos]
          exact reg_cauchy x y hlen

/-- Closed witness for `linearRegression_r2_mem_unitInterval` at
`x = [1, 2, 4]`, `y = [2, 3, 1]`. -/
theorem linearRegression_r2_mem_unitInterval_witness :
    0 ≤ (linearRegression [(1 : ℝ), 2, 4] [2, 3, 1]).r2 ∧
      (linearRegression [(1 : ℝ), 2, 4] [2, 3, 1]).r2 ≤ 1 :=
  linearRegression_r2_mem_unitInterval [1, 2, 4] [2, 3, 1] (by norm_num)

/-- C7: the flywheel inverse estimation tail fails with
"Invalid parameters." exactly when `2h·(n₁+n₂) = 0`, fails with
"Non-physical result." exactly when that denominator is nonzero and the
computed `I = m·r²·(g·t² − 2h)·n₂ / (2h·(n₁+n₂)) ≤ 0`; on either failure
the stored reading list is unchanged, and on success exactly that `I` is
appended as the reading's inertia estimate. -/
theorem fw_estimate_step_spec (m_kg r_m : ℝ) (n1 : ℕ) (t n2 g : ℝ)
    (s : List FwReading) :
    ((fw_estimate_step m_kg r_m n1 t n2 g s).err = some .invalidParams ↔
      2 * (2 * Real.pi * r_m * (n1 : ℝ)) * ((n1 : ℝ) + n2) = 0) ∧
    ((fw_estimate_step m_kg r_m n1 t n2 g s).err = some .nonPhysical ↔
      2 * (2 * Real.pi * r_m * (n1 : ℝ)) * ((n1 : ℝ) + n2) ≠ 0 ∧
        estimateInertia m_kg r_m n1 t n2 g ≤ 0) ∧
    ((fw_estimate_step m_kg r_m n1 t n2 g s).err ≠ none →
      (fw_estimate_step m_kg r_m n1 t n2 g s).readings = s) ∧
    ((fw_estimate_step m_kg r_m n1 t n2 g s).err = none →
      (fw_estimate_step m_kg r_m n1 t n2 g s).readings =
        s ++ [⟨m_kg, 2 * Real.pi * r_m * (n1 : ℝ), t, n2,
          estimateInertia m_kg r_m n1 t n2 g⟩]) := by
  simp only [fw_estimate_step, estimateInertia]
  split_ifs with h1 h2
  · refine ⟨?_, ?_, ?_, ?_⟩ <;> simp [h1]
  · refine ⟨?_, ?_, ?_, ?_⟩ <;> simp [h1, h2]
  · refine ⟨?_, ?_, ?_, ?_⟩ <;> simp [h1, h2]

/-- C8: the flywheel forward simulation fails with "Mass is too light."
exactly when the linear acceleration `a = (m·g − Tf/r)/(m + I/r²)` is
`≤ 0`, recording no reading in that case; when `a > 0` it proceeds into
the estimation tail with `fallTime t = √(2h/a)`, `ω = a·t/r` and
`postFallRotations n₂ = (I·ω²)/(2·Tf·2π)` (each then scaled by its
multiplicative noise factor). -/
theorem fw_sim_step_spec (mass_g r_cm : ℝ) (n1 : ℕ) (I Tf noiseT noiseN : ℝ)
    (s : List FwReading) :
    ((fw_sim_step mass_g r_cm n1 I Tf noiseT noiseN s).err =
        some .massTooLight ↔
      fw_accel (mass_g / 1000) (r_cm / 100) I Tf G_ACCELERATION ≤ 0) ∧
    (fw_accel (mass_g / 1000) (r_cm / 100) I Tf G_ACCELERATION ≤ 0 →
      (fw_sim_step mass_g r_cm n1 I Tf noiseT noiseN s).readings = s) ∧
    (0 < fw_accel (mass_g / 1000) (r_cm / 100) I Tf G_ACCELERATION →
      fw_sim_step mass_g r_cm n1 I Tf noiseT noiseN s =
        fw_estimate_step (mass_g / 1000) (r_cm / 100) n1
          (fw_fallTime (fw_height (r_cm / 100) n1)
              (fw_accel (mass_g / 1000) (r_cm / 100) I Tf G_ACCELERATION) *
            (1 + noiseT))
          (fw_n2 I
              (fw_omega
                (fw_accel (mass_g / 1000) (r_cm / 100) I Tf G_ACCELERATION)
                (fw_fallTime (fw_height (r_cm / 100) n1)
                  (fw_accel (mass_g / 1000) (r_cm / 100) I Tf
                    G_ACCELERATION))
                (r_cm / 100)) Tf *
            (1 + noiseN))
          G_ACCELERATION s) := by
  simp only [fw_sim_step, fw_accel, fw_height, fw_fallTime, fw_omega, fw_n2]
  split_ifs with ha
  · refine ⟨by simp [ha], fun _ => rfl, fun hpos => absurd hpos (by
      simpa using ha)⟩
  · push_neg at ha
    refine ⟨?_, fun hle => absurd ha (by simpa using hle), fun _ => rfl⟩
    constructor
    · intro habs
      exfalso
      revert habs
      simp only [fw_estimate_step]
      split_ifs <;> simp
    · intro hle
      exact absurd ha (by simpa using hle)

/-- Shared helper: the slope of `linearRegression` on a nondegenerate
two-point input is the difference quotient of the two points. -/
lemma linearRegression_two_point_slope (x1 x2 y1 y2 : ℝ) (hne : x1 ≠ x2) :
    (linearRegression [x1, x2] [y1, y2]).slope = (y1 - y2) / (x1 - x2) := by
  have hsub : x1 - x2 ≠ 0 := sub_ne_zero.mpr hne
  simp only [linearRegression]
  norm_num
  split_ifs with h h2
  · exfalso
    apply hsub
    have hsq : (x1 - x2) ^ 2 = 0 := by nlinarith [h]
    exact (pow_eq_zero_iff (by norm_num)).mp hsq
  all_goals
    dsimp only
    rw [div_eq_div_iff (fun h0 => h (by linarith)) hsub]
    ring

/-- C1: pendulum round trip.  For gravity `g > 0`, oscillation count
`n > 0` and distinct positive lengths `L1 ≠ L2`, two noiseless readings
synthesized by `simulateMeasuredTime` (measured time `n·2π·√(L/g)`) fed
into the inverse estimator (regression of `L` against `T²` followed by
`g = slope·4π²`) recover the original gravity exactly — forward model
followed by inverse model is the identity on gravity. -/
theorem pendulum_roundtrip (g L1 L2 : ℝ) (n : ℕ) (hg : 0 < g)
    (hn : 0 < n) (hL1 : 0 < L1) (hL2 : 0 < L2) (hne : L1 ≠ L2) :
    sp_estimateGravity
      [sp_mkReading 1 L1 (simulateMeasuredTime L1 g n 0) n,
       sp_mkReading 2 L2 (simulateMeasuredTime L2 g n 0) n] = g := by
  have hπ := Real.pi_pos
  have hn0 : (n : ℝ) ≠ 0 := Nat.cast_ne_zero.mpr hn.ne'
  have hT2 : ∀ L : ℝ, 0 < L →
      simulateMeasuredTime L g n 0 / (n : ℝ) *
        (simulateMeasuredTime L g n 0 / (n : ℝ)) =
        4 * Real.pi ^ 2 * L / g := by
    intro L hL
    rw [simulateMeasuredTime, theoreticalPeriod]
    have hdiv : (n : ℝ) * (2 * Real.pi * Real.sqrt (L / g)) * (1 + 0) /
        (n : ℝ) = 2 * Real.pi * Real.sqrt (L / g) := by
      field_simp
      ring
    rw [hdiv, show 2 * Real.pi * Real.sqrt (L / g) *
        (2 * Real.pi * Real.sqrt (L / g)) =
        4 * Real.pi ^ 2 * (Real.sqrt (L / g) * Real.sqrt (L / g)) from by
          ring,
      Real.mul_self_sqrt (by positivity)]
    ring
  have h4 : (4 * Real.pi ^ 2 : ℝ) ≠ 0 := by positivity
  have hxne : 4 * Real.pi ^ 2 * L1 / g ≠ 4 * Real.pi ^ 2 * L2 / g := by
    rw [← sub_ne_zero, show 4 * Real.pi ^ 2 * L1 / g -
        4 * Real.pi ^ 2 * L2 / g = 4 * Real.pi ^ 2 * (L1 - L2) / g from by
          ring]
    exact div_ne_zero (mul_ne_zero h4 (sub_ne_zero.mpr hne)) hg.ne'
  simp only [sp_estimateGravity, sp_mkReading, List.map_cons, List.map_nil]
  rw [hT2 L1 hL1, hT2 L2 hL2, linearRegression_two_point_slope _ _ _ _ hxne]
  rw [div_mul_eq_mul_div, div_mul_eq_mul_div, div_mul_eq_mul_div,
    div_eq_iff (sub_ne_zero.mpr hxne)]
  field_simp
  ring

/-- Closed witness for `pendulum_roundtrip` at `g = 9.81`, `n = 5`,
`L1 = 1`, `L2 = 2`. -/
theorem pendulum_roundtrip_witness :
    sp_estimateGravity
      [sp_mkReading 1 1 (simulateMeasuredTime 1 9.81 5 0) 5,
       sp_mkReading 2 2 (simulateMeasuredTime 2 9.81 5 0) 5] = 9.81 :=
  pendulum_roundtrip 9.81 1 2 5 (by norm_num) (by norm_num) (by norm_num)
    (by norm_num) (by norm_num)

/-- C2: flywheel round trip.  For positive mass, axle radius, winding
count, inertia, friction torque and gravity with positive fall
acceleration, feeding the noiseless simulated fall time and post-fall
rotations into the inverse estimator (with the same mass, radius, `n₁`
and gravity) recovers the original moment of inertia exactly. -/
theorem flywheel_roundtrip (m r I Tf g : ℝ) (n1 : ℕ)
    (hm : 0 < m) (hr : 0 < r) (hn1 : 0 < n1) (hI : 0 < I) (hTf : 0 < Tf)
    (hg : 0 < g) (ha : 0 < fw_accel m r I Tf g) :
    estimateInertia m r n1
      (fw_fallTime (fw_height r n1) (fw_accel m r I Tf g))
      (fw_n2 I
        (fw_omega (fw_accel m r I Tf g)
          (fw_fallTime (fw_height r n1) (fw_accel m r I Tf g)) r)
        Tf)
      g = I := by
  have hπ := Real.pi_pos
  have hN : (0 : ℝ) < (n1 : ℝ) := Nat.cast_pos.mpr hn1
  have hh : 0 < fw_height r n1 := by
    rw [fw_height]; positivity
  have ht2 : fw_fallTime (fw_height r n1) (fw_accel m r I Tf g) *
      fw_fallTime (fw_height r n1) (fw_accel m r I Tf g) =
      2 * fw_height r n1 / fw_accel m r I Tf g := by
    rw [fw_fallTime]
    exact Real.mul_self_sqrt (by positivity)
  have hn2 : fw_n2 I
      (fw_omega (fw_accel m r I Tf g)
        (fw_fallTime (fw_height r n1) (fw_accel m r I Tf g)) r) Tf =
      I * fw_height r n1 * fw_accel m r I Tf g /
        (2 * Real.pi * Tf * (r * r)) := by
    have ht2a : fw_accel m r I Tf g *
        (fw_fallTime (fw_height r n1) (fw_accel m r I Tf g) *
          fw_fallTime (fw_height r n1) (fw_accel m r I Tf g)) =
        2 * fw_height r n1 := by
      rw [ht2]
      field_simp
    rw [fw_n2, fw_omega]
    linear_combination (I * fw_accel m r I Tf g /
      (r * r) / (2 * Tf) / (2 * Real.pi)) * ht2a
  have hD : m + I / (r * r) ≠ 0 := by positivity
  have hD2 : m * (r * r) + I ≠ 0 := by positivity
  have hApos : 0 < m * g - Tf / r := by
    have ha' := ha
    rw [fw_accel] at ha'
    rcases div_pos_iff.mp ha' with ⟨h1, _⟩ | ⟨_, h2⟩
    · exact h1
    · exfalso
      have hp : (0 : ℝ) < m + I / (r * r) := by positivity
      linarith
  have hA2 : 0 < m * g * (r * r) - Tf * r := by
    have he : m * g * (r * r) - Tf * r = (m * g - Tf / r) * (r * r) := by
      field_simp
      ring
    rw [he]
    exact mul_pos hApos (by positivity)
  have ha_eq : fw_accel m r I Tf g =
      (m * g * (r * r) - Tf * r) / (m * (r * r) + I) := by
    rw [fw_accel, div_eq_div_iff hD hD2]
    field_simp
    ring
  have ht2g : g * fw_fallTime (fw_height r n1) (fw_accel m r I Tf g) *
      fw_fallTime (fw_height r n1) (fw_accel m r I Tf g) =
      g * (2 * fw_height r n1 / fw_accel m r I Tf g) := by
    rw [mul_assoc, ht2]
  rw [estimateInertia, ht2g, hn2]
  rw [div_eq_iff (by positivity :
    2 * (2 * Real.pi * r * (n1 : ℝ)) * ((n1 : ℝ) +
      I * fw_height r n1 * fw_accel m r I Tf g /
        (2 * Real.pi * Tf * (r * r))) ≠ 0)]
  rw [fw_height, ha_eq]
  field_simp [hA2.ne', hD2, hr.ne', hTf.ne', Real.pi_ne_zero, hN.ne']
  ring

/-- Closed witness for `flywheel_roundtrip` at the representative values
`mass = 0.05 kg`, `axleRadius = 0.05 m`, `n1 = 5`, `I = 0.01`,
`Tf = 0.003`, `gravity = 9.81`. -/
theorem flywheel_roundtrip_witness :
    estimateInertia 0.05 0.05 5
      (fw_fallTime (fw_height 0.05 5) (fw_accel 0.05 0.05 0.01 0.003 9.81))
      (fw_n2 0.01
        (fw_omega (fw_accel 0.05 0.05 0.01 0.003 9.81)
          (fw_fallTime (fw_height 0.05 5)
            (fw_accel 0.05 0.05 0.01 0.003 9.81)) 0.05)
        0.003)
      9.81 = 0.01 :=
  flywheel_roundtrip 0.05 0.05 0.01 0.003 9.81 5 (by norm_num)
    (by norm_num) (by norm_num) (by norm_num) (by norm_num) (by norm_num)
    (by norm_num [fw_accel])

/-- Shared helper: with nonpositive acceleration the simulation branch
stops with "Mass is too light." and returns the list unchanged. -/
lemma fw_sim_step_stopped (mass_g r_cm : ℝ) (n1 : ℕ)
    (I Tf noiseT noiseN : ℝ) (s : List FwReading)
    (ha : fw_accel (mass_g / 1000) (r_cm / 100) I Tf G_ACCELERATION ≤ 0) :
    fw_sim_step mass_g r_cm n1 I Tf noiseT noiseN s =
      ⟨s, some .massTooLight⟩ := by
  rw [fw_accel] at ha
  simp only [fw_sim_step]
  rw [if_pos ha]

/-- Shared helper: with positive acceleration the simulation branch feeds
the noisy simulated measurements into the estimation tail. -/
lemma fw_sim_step_run (mass_g r_cm : ℝ) (n1 : ℕ)
    (I Tf noiseT noiseN : ℝ) (s : List FwReading)
    (ha : 0 < fw_accel (mass_g / 1000) (r_cm / 100) I Tf G_ACCELERATION) :
    fw_sim_step mass_g r_cm n1 I Tf noiseT noiseN s =
      fw_estimate_step (mass_g / 1000) (r_cm / 100) n1
        (fw_fallTime (fw_height (r_cm / 100) n1)
            (fw_accel (mass_g / 1000) (r_cm / 100) I Tf G_ACCELERATION) *
          (1 + noiseT))
        (fw_n2 I
            (fw_omega
              (fw_accel (mass_g / 1000) (r_cm / 100) I Tf G_ACCELERATION)
              (fw_fallTime (fw_height (r_cm / 100) n1)
                (fw_accel (mass_g / 1000) (r_cm / 100) I Tf G_ACCELERATION))
              (r_cm / 100)) Tf *
          (1 + noiseN))
        G_ACCELERATION s := by
  rw [fw_accel] at ha
  simp only [fw_sim_step, fw_accel, fw_height, fw_fallTime, fw_omega, fw_n2]
  rw [if_neg (not_le.mpr ha)]

/-- Shared helper: the estimation tail only ever appends a reading whose
mass, fall time, rotation count and inertia estimate are positive
(the first three when the supplied values are positive, the last by the
`I ≤ 0` guard). -/
lemma fw_estimate_step_pos (m_kg r_m : ℝ) (n1 : ℕ) (t n2 g : ℝ)
    (s : List FwReading) (hm : 0 < m_kg) (ht : 0 < t) (hn2 : 0 < n2)
    (hs : ∀ x ∈ s, FwReadingPos x) :
    ∀ x ∈ (fw_estimate_step m_kg r_m n1 t n2 g s).readings,
      FwReadingPos x := by
  simp only [fw_estimate_step]
  split_ifs with h1 h2
  · exact hs
  · exact hs
  · intro x hx
    rcases List.mem_append.mp hx with hx | hx
    · exact hs x hx
    · rw [List.mem_singleton] at hx
      subst hx
      exact ⟨hm, ht, hn2, not_le.mp h2⟩

/-- Shared helper: the manual branch preserves positivity of all stored
readings. -/
lemma fw_manual_step_pos (mass_g t n2 r_cm : ℝ) (n1 : ℕ)
    (s : List FwReading) (hs : ∀ x ∈ s, FwReadingPos x) :
    ∀ x ∈ (fw_manual_step mass_g t n2 r_cm n1 s).readings,
      FwReadingPos x := by
  simp only [fw_manual_step]
  split_ifs with h
  · exact hs
  · push_neg at h
    exact fw_estimate_step_pos _ _ _ _ _ _ _ h.1 h.2.1 h.2.2 hs

/-- Shared helper: the simulation branch preserves positivity of all
stored readings under the slider/model interface constraints. -/
lemma fw_sim_step_pos (mass_g r_cm : ℝ) (n1 : ℕ)
    (I Tf noiseT noiseN : ℝ) (s : List FwReading)
    (hmg : 0 < mass_g) (hrc : 0 < r_cm) (hn1 : 0 < n1) (hI : 0 < I)
    (hTf : 0 < Tf) (hnt : -1 < noiseT) (hnn : -1 < noiseN)
    (hs : ∀ x ∈ s, FwReadingPos x) :
    ∀ x ∈ (fw_sim_step mass_g r_cm n1 I Tf noiseT noiseN s).readings,
      FwReadingPos x := by
  by_cases ha : fw_accel (mass_g / 1000) (r_cm / 100) I Tf
      G_ACCELERATION ≤ 0
  · rw [fw_sim_step_stopped mass_g r_cm n1 I Tf noiseT noiseN s ha]
    exact hs
  · push_neg at ha
    rw [fw_sim_step_run mass_g r_cm n1 I Tf noiseT noiseN s ha]
    have hN : (0 : ℝ) < (n1 : ℝ) := Nat.cast_pos.mpr hn1
    have hh : 0 < fw_height (r_cm / 100) n1 := by
      rw [fw_height]; positivity
    have ht0 : 0 < fw_fallTime (fw_height (r_cm / 100) n1)
        (fw_accel (mass_g / 1000) (r_cm / 100) I Tf G_ACCELERATION) := by
      rw [fw_fallTime]
      exact Real.sqrt_pos.mpr (by positivity)
    have hω : 0 < fw_omega
        (fw_accel (mass_g / 1000) (r_cm / 100) I Tf G_ACCELERATION)
        (fw_fallTime (fw_height (r_cm / 100) n1)
          (fw_accel (mass_g / 1000) (r_cm / 100) I Tf G_ACCELERATION))
        (r_cm / 100) := by
      rw [fw_omega]; positivity
    have hn2v : 0 < fw_n2 I
        (fw_omega
          (fw_accel (mass_g / 1000) (r_cm / 100) I Tf G_ACCELERATION)
          (fw_fallTime (fw_height (r_cm / 100) n1)
            (fw_accel (mass_g / 1000) (r_cm / 100) I Tf G_ACCELERATION))
          (r_cm / 100)) Tf := by
      rw [fw_n2]; positivity
    exact fw_estimate_step_pos _ _ _ _ _ _ _ (by positivity)
      (mul_pos ht0 (by linarith)) (mul_pos hn2v (by linarith)) hs

/-- C10: flywheel session invariant.  Along every trace of
`fw_addReading` events whose simulation-mode events respect the
slider/model interface constraints, every reading ever stored has
strictly positive mass, fall time, post-fall rotation count and inertia
estimate. -/
theorem fw_session_positive (es : List FwEvent)
    (hval : ∀ e ∈ es, FwEventValid e) :
    ∀ x ∈ es.foldl fw_step [], FwReadingPos x := by
  have main : ∀ (evs : List FwEvent), (∀ e ∈ evs, FwEventValid e) →
      ∀ (s : List FwReading), (∀ x ∈ s, FwReadingPos x) →
      ∀ x ∈ evs.foldl fw_step s, FwReadingPos x := by
    intro evs
    induction evs with
    | nil =>
      intro _ s hs
      simpa using hs
    | cons e rest ih =>
      intro hv s hs
      simp only [List.foldl_cons]
      apply ih fun e' he' => hv e' (List.mem_cons_of_mem _ he')
      have hve := hv e (List.mem_cons_self _ _)
      cases e with
      | sim mass_g r_cm n1 I Tf noiseT noiseN =>
        obtain ⟨h1, h2, h3, h4, h5, h6, h7⟩ := hve
        exact fw_sim_step_pos mass_g r_cm n1 I Tf noiseT noiseN s
          h1 h2 h3 h4 h5 h6 h7 hs
      | manual mass_g t n2 r_cm n1 =>
        exact fw_manual_step_pos mass_g t n2 r_cm n1 s hs
  exact main es hval [] (by simp)

/-- Closed witness for `fw_session_positive` on a one-event manual
trace. -/
theorem fw_session_positive_witness :
    (∀ e ∈ [FwEvent.manual 50 2 3 5 5], FwEventValid e) ∧
      ∀ x ∈ [FwEvent.manual 50 2 3 5 5].foldl fw_step [],
        FwReadingPos x := by
  have hv : ∀ e ∈ [FwEvent.manual 50 2 3 5 5], FwEventValid e := by
    intro e he
    rw [List.mem_singleton] at he
    subst he
    exact trivial
  exact ⟨hv, fw_session_positive [FwEvent.manual 50 2 3 5 5] hv⟩

/-- Effect of one `sp_addReading` insertion event (resolved length,
measured time and oscillation count) on the stored pendulum reading
list. -/
noncomputable def sp_step (s : List SpReading) (e : ℝ × ℝ × ℕ) :
    List SpReading :=
  (sp_insertReading s e.1 e.2.1 e.2.2).1

/-- Shared helper: renumbering does not change the lengths column. -/
lemma sp_renumber_map_L (l : List SpReading) :
    ((l.mapIdx fun i r => { r with sno := i + 1 }).map fun r => r.L) =
      l.map fun r => r.L := by
  rw [List.mapIdx_eq_ofFn, List.map_ofFn]
  conv_rhs => rw [← List.ofFn_get l, List.map_ofFn]
  rfl

/-- Shared helper: renumbering produces the sequence numbers `1..N`. -/
lemma sp_renumber_map_sno (l : List SpReading) :
    ((l.mapIdx fun i r => { r with sno := i + 1 }).map fun r => r.sno) =
      List.range' 1 l.length := by
  rw [List.mapIdx_eq_ofFn, List.map_ofFn]
  apply List.ext_getElem
  · simp
  · intro i h1 h2
    simp only [List.getElem_ofFn, Function.comp_apply, List.getElem_range']
    omega

/-- Shared helper: sorting the extended list by length keeps the lengths
column strictly increasing when the original lengths are pairwise
distinct and the new length is fresh. -/
lemma sp_sorted_insert (s : List SpReading) (x : SpReading)
    (hinv : (s.map fun r => r.L).Pairwise (· < ·))
    (hfresh : ∀ r ∈ s, r.L ≠ x.L) :
    (((s ++ [x]).mergeSort fun a b => decide (a.L ≤ b.L)).map
      fun r => r.L).Pairwise (· < ·) := by
  have hsorted : ((s ++ [x]).mergeSort fun a b =>
      decide (a.L ≤ b.L)).Pairwise fun a b =>
        decide (a.L ≤ b.L) = true :=
    @List.sorted_mergeSort SpReading (fun a b => decide (a.L ≤ b.L))
      (fun a b c h1 h2 => decide_eq_true
        (le_trans (of_decide_eq_true h1) (of_decide_eq_true h2)))
      (fun a b => by simpa using le_total a.L b.L)
      (s ++ [x])
  have hle : (((s ++ [x]).mergeSort fun a b =>
      decide (a.L ≤ b.L)).map fun r => r.L).Sorted (· ≤ ·) :=
    List.pairwise_map.mpr (hsorted.imp fun h => of_decide_eq_true h)
  have hnodup_ext : ((s ++ [x]).map fun r => r.L).Nodup := by
    rw [List.map_append]
    refine List.nodup_append.mpr ⟨hinv.imp fun h => ne_of_lt h, ?_, ?_⟩
    · simp
    · intro a ha hb
      rw [List.map_singleton, List.mem_singleton] at hb
      subst hb
      rcases List.mem_map.mp ha with ⟨r, hr, hrl⟩
      exact hfresh r hr hrl
  have hnodup : (((s ++ [x]).mergeSort fun a b =>
      decide (a.L ≤ b.L)).map fun r => r.L).Nodup :=
    (((List.mergeSort_perm (s ++ [x]) fun a b =>
      decide (a.L ≤ b.L)).map fun r => r.L).nodup_iff).mpr hnodup_ext
  exact hle.lt_of_le hnodup

/-- Shared helper: one insertion preserves the pendulum reading-set
invariant. -/
lemma sp_insert_preserves (s : List SpReading) (L t : ℝ) (n : ℕ)
    (hinv : SpInvariant s) : SpInvariant (sp_insertReading s L t n).1 := by
  rw [sp_insertReading]
  by_cases hdup : (s.any fun r => decide (r.L = L)) = true
  · rw [if_pos hdup]
    exact hinv
  · rw [if_neg hdup]
    dsimp only
    have hfresh : ∀ r ∈ s,
        r.L ≠ (SpReading.mk 0 L t (t / (n : ℝ))
          ((t / (n : ℝ)) * (t / (n : ℝ)))).L := by
      intro r hr habs
      exact hdup (List.any_eq_true.mpr ⟨r, hr, decide_eq_true habs⟩)
    constructor
    · rw [sp_renumber_map_L]
      exact sp_sorted_insert s _ hinv.1 hfresh
    · rw [sp_renumber_map_sno, List.length_mapIdx]

/-- C9: pendulum reading-set invariant.  Every state reached from the
empty session by insertion events has pairwise strictly ascending
lengths (hence pairwise distinct, sorted lengths) and sequence numbers
exactly `1..N`; and an insertion whose length equals a stored reading's
length is rejected with the stored reading list returned completely
unchanged. -/
theorem sp_session_invariant :
    (∀ es : List (ℝ × ℝ × ℕ), SpInvariant (es.foldl sp_step [])) ∧
    (∀ (s : List SpReading) (L t : ℝ) (n : ℕ), (∃ r ∈ s, r.L = L) →
      sp_insertReading s L t n = (s, some .duplicateLength)) := by
  constructor
  · intro es
    have main : ∀ (evs : List (ℝ × ℝ × ℕ)) (s : List SpReading),
        SpInvariant s → SpInvariant (evs.foldl sp_step s) := by
      intro evs
      induction evs with
      | nil => intro s hs; simpa using hs
      | cons e rest ih =>
        intro s hs
        simp only [List.foldl_cons]
        exact ih _ (sp_insert_preserves s e.1 e.2.1 e.2.2 hs)
    refine main es [] ⟨by simp, by simp⟩
  · intro s L t n hdup
    rcases hdup with ⟨r, hr, hrl⟩
    rw [sp_insertReading,
      if_pos (List.any_eq_true.mpr ⟨r, hr, decide_eq_true hrl⟩)]

/-- Closed witness for `sp_session_invariant`: the invariant after a
two-event trace, and rejection of a duplicate length against a concrete
one-reading state. -/
theorem sp_session_invariant_witness :
    SpInvariant ([((1 : ℝ), (2 : ℝ), (5 : ℕ)),
      ((2 : ℝ), (3 : ℝ), (5 : ℕ))].foldl sp_step []) ∧
    sp_insertReading [sp_mkReading 1 1 2 5] 1 3 5 =
      ([sp_mkReading 1 1 2 5], some .duplicateLength) :=
  ⟨sp_session_invariant.1 _,
    sp_session_invariant.2 [sp_mkReading 1 1 2 5] 1 3 5
      ⟨sp_mkReading 1 1 2 5, by simp, rfl⟩⟩



/-- C4: `linearRegression` never signals an error: an empty input, and any
input whose x-values are degenerate (`n·Σx² − (Σx)² = 0`, which subsumes
the empty and the all-x-equal case), yields the neutral value
`{slope: 0, intercept: 0, r2: 0}`; being a total function, every branch
returns a value. -/
theorem linearRegression_degenerate (x y : List ℝ)
    (hdeg : x.length = 0 ∨
      (x.length : ℝ) * (x.map fun a => a * a).sum - x.sum * x.sum = 0) :
    linearRegression x y = ⟨0, 0, 0⟩ := by
  rcases hdeg with h | h
  · simp only [linearRegression]
    rw [if_pos h]
  · simp only [linearRegression]
    by_cases h0 : x.length = 0
    · rw [if_pos h0]
    · rw [if_neg h0, if_pos h]

/-- Closed witness for `linearRegression_degenerate` at the degenerate
input `x = [5, 5]`, `y = [1, 2]`. -/
theorem linearRegression_degenerate_witness :
    linearRegression [(5 : ℝ), 5] [1, 2] = ⟨0, 0, 0⟩ :=
  linearRegression_degenerate [5, 5] [1, 2] (Or.inr (by norm_num))

/-- C3: for equal-length inputs with `n ≥ 1` points and nondegenerate x,
`linearRegression` returns `slope = (n·Σxy − Σx·Σy)/(n·Σx² − (Σx)²)` and
`intercept = (Σy − slope·Σx)/n` (the sums being the single-pass list
sums), and on the set `{(1,2),(2,4),(3,6)}` it returns
`slope = 2, intercept = 0, r2 = 1`. -/
theorem linearRegression_formula (x y : List ℝ) (hlen : x.length = y.length)
    (hn : 1 ≤ x.length)
    (hden : (x.length : ℝ) * (x.map fun a => a * a).sum - x.sum * x.sum ≠ 0) :
    ((linearRegression x y).slope =
      ((x.length : ℝ) * ((x.zip y).map fun p => p.1 * p.2).sum -
          x.sum * y.sum) /
        ((x.length : ℝ) * (x.map fun a => a * a).sum - x.sum * x.sum) ∧
    (linearRegression x y).intercept =
      (y.sum - (linearRegression x y).slope * x.sum) / (x.length : ℝ)) ∧
    linearRegression [1, 2, 3] [2, 4, 6] = ⟨2, 0, 1⟩ := by
  constructor
  · have h0 : x.length ≠ 0 := by omega
    simp only [linearRegression]
    rw [if_neg h0, if_neg hden]
    exact ⟨rfl, rfl⟩
  · have hs : Real.sqrt 144 = 12 := by
      rw [show (144 : ℝ) = 12 ^ 2 by norm_num]
      exact Real.sqrt_sq (by norm_num)
    simp only [linearRegression]
    norm_num [hs]

/-- Closed witness for `linearRegression_formula` at
`x = [1, 2]`, `y = [3, 5]`: the slope evaluates to
`(2·13 − 3·8)/(2·5 − 3·3) = 2`. -/
theorem linearRegression_formula_witness :
    (linearRegression [(1 : ℝ), 2] [3, 5]).slope =
        ((2 : ℝ) * 13 - 3 * 8) / (2 * 5 - 3 * 3) ∧
      (linearRegression [(1 : ℝ), 2] [3, 5]).intercept =
        ((8 : ℝ) - (linearRegression [(1 : ℝ), 2] [3, 5]).slope * 3) / 2 := by
  have h := (linearRegression_formula [(1 : ℝ), 2] [3, 5] (by norm_num)
    (by norm_num) (by norm_num)).1
  refine ⟨?_, ?_⟩
  · rw [h.1]; norm_num
  · rw [h.2]; norm_num

end VPLab
